import Mathlib

/-!
The program `klang.js`: a presence cache over a directory of marker files.

A shallow embedding of `src/klang.js`: the body parser, the in-memory index
(`filesArray`, `filesSet`), the reconciliation pass `clean`, the four HTTP
handlers and the two reconciliation triggers (directory watch with its
debounce timeout, periodic timer).

Conventions of the embedding.
* A JavaScript `Set` of strings is a duplicate-free list in insertion order.
* The backing directory is the list of its entry names, in the order
  `fs.readdir` enumerates them.
* What the file system answers while one callback runs (whether `readdir`
  reports an error, which `statSync` and `openSync` calls throw, the
  modification times, which directory entry an opened path names) is an
  input of that callback, `Env`.
* The runtime is Node.js 10 or later, which the options argument passed to
  `fs.mkdirSync` on line 101 presupposes: an asynchronous `fs` call made
  without a callback throws a `TypeError`.
* An exception that leaves a callback is caught nowhere, so the process
  terminates (`crashed`).
* Every callback of the program runs to completion before the next one starts
  (single-threaded event loop), so a callback is a function on `State`.
-/

namespace Klang

/-! ## JavaScript library functions used by the program -/

/-- The call `s.split(sep)` for a one-character separator, on the list of characters:
the pieces between consecutive separators, empty pieces included. -/
def splitChars (sep : Char) : List Char → List (List Char)
  | [] => [[]]
  | c :: cs =>
    if c = sep then [] :: splitChars sep cs
    else
      match splitChars sep cs with
      | [] => [[c]]
      | t :: ts => (c :: t) :: ts

/-- The call `s.split(sep)` on strings. -/
def jsSplit (sep : Char) (s : String) : List String :=
  (splitChars sep s.data).map String.mk

/-- The call `s.includes(c)` for a one-character needle. -/
def jsIncludes (s : String) (c : Char) : Bool :=
  decide (c ∈ s.data)

/-- Truthiness of a string value: only the empty string is falsy. -/
def truthy (x : String) : Bool :=
  decide (x ≠ "")

/-- The call `xs.join(sep)` on an array of strings. -/
def jsJoin (sep : String) : List String → String
  | [] => ""
  | [x] => x
  | x :: y :: rest => x ++ sep ++ jsJoin sep (y :: rest)

/-- Conversion `String(n)` for a non-negative integer number, as `join` applies it to
the numbers `1` and `0`. -/
def numToString (n : Nat) : String :=
  toString n

/-- Construction `new Set(xs)`: the elements of `xs`, first occurrences only. -/
def setOf : List String → List String
  | [] => []
  | x :: xs => x :: (setOf xs).filter (fun y => decide (y ≠ x))

/-- The call `set.has(x)`. -/
def setHas (set : List String) (x : String) : Bool :=
  decide (x ∈ set)

/-- The call `set.add(x)`. -/
def setAdd (set : List String) (x : String) : List String :=
  if x ∈ set then set else set ++ [x]

/-- The call `set.delete(x)`. -/
def setDelete (set : List String) (x : String) : List String :=
  set.filter (fun y => decide (y ≠ x))

/-- Segment pass of `path.normalize` (posix): empty and `.` segments are
dropped, `..` removes the segment before it, or is kept when there is none to
remove and the path is relative.  The accumulator holds the output segments,
last first. -/
def normalizeSegments (allowAboveRoot : Bool) :
    List (List Char) → List (List Char) → List (List Char)
  | acc, [] => acc.reverse
  | acc, seg :: rest =>
    if seg = [] ∨ seg = ['.'] then normalizeSegments allowAboveRoot acc rest
    else if seg = ['.', '.'] then
      match acc with
      | [] =>
        if allowAboveRoot then normalizeSegments allowAboveRoot [seg] rest
        else normalizeSegments allowAboveRoot [] rest
      | top :: below =>
        if top = ['.', '.'] then
          if allowAboveRoot then normalizeSegments allowAboveRoot (seg :: acc) rest
          else normalizeSegments allowAboveRoot acc rest
        else normalizeSegments allowAboveRoot below rest
    else normalizeSegments allowAboveRoot (seg :: acc) rest

/-- The call `path.normalize(p)` (posix), on the list of characters. -/
def pathNormalize (p : List Char) : List Char :=
  if p = [] then ['.']
  else
    let isAbsolute := decide (p.head? = some '/')
    let trailingSeparator := decide (p.getLast? = some '/')
    let r := List.intercalate ['/']
      (normalizeSegments (!isAbsolute) [] (splitChars '/' p))
    if r = [] then
      if isAbsolute then ['/'] else if trailingSeparator then ['.', '/'] else ['.']
    else
      (if isAbsolute then ['/'] else []) ++ r ++ (if trailingSeparator then ['/'] else [])

/-- The call `path.join(data, file)` (posix): the non-empty arguments joined
by a slash, then normalised. -/
def pathJoin (data file : String) : String :=
  let parts := [data, file].filter truthy
  if parts = [] then "." else String.mk (pathNormalize (jsJoin "/" parts).data)

/-! ## Request body parsing (`req.on("end")`, lines 160–165) -/

/-- The list `files` computed from the request body. -/
def parseBody (body : String) : List String :=
  if jsIncludes body ',' then
    (jsSplit ',' body).filter truthy
  else
    (jsSplit '\n' body).filter truthy

/-! ## State -/

/-- One call into the `fs` module that changed, or asked to change, the
directory and returned normally. -/
inductive FsCall where
  /-- the call `fs.closeSync(fs.openSync(path, "a"))` -/
  | openAppend (path : String)
  /-- the call `fs.unlink(path, callback)` -/
  | unlink (path : String)
  /-- the call `fs.unlinkSync(path)` -/
  | unlinkSync (path : String)
  deriving DecidableEq, Repr

/-- The module-level variables of `klang.js`, the backing directory and the
record of file-system calls made so far. -/
structure State where
  /-- variable `data`: the backing directory path -/
  data : String
  /-- variable `maxEntries` -/
  maxEntries : Nat
  /-- variable `filesArray` -/
  filesArray : List String
  /-- variable `filesSet` -/
  filesSet : List String
  /-- variable `watchSuspended` -/
  watchSuspended : Bool
  /-- variable `cleanPending` -/
  cleanPending : Bool
  /-- number of debounce timeouts (`setTimeout(..., 1000)`) not yet fired -/
  timeouts : Nat
  /-- entries of the backing directory, in enumeration order -/
  dir : List String
  /-- file-system calls that returned normally, oldest first -/
  fsCalls : List FsCall
  /-- an exception left a callback uncaught: the process has terminated -/
  crashed : Bool
  deriving DecidableEq, Repr

/-- How `fs.openSync(path, "a")` ends. -/
inductive OpenResult where
  /-- the call throws (`ENOENT`, `EISDIR`, `EACCES`, `ENAMETOOLONG`, ...) -/
  | throws
  /-- the file is open, created if it was absent; `entry` is the entry of
  the backing directory that the path names, `none` when the path leads
  elsewhere -/
  | opened (entry : Option String)
  deriving DecidableEq, Repr

/-- What the file system answers while one callback runs. -/
structure Env where
  /-- whether `fs.readdir` calls back with an error -/
  readdirErr : Bool
  /-- the value `fs.statSync(path).mtimeMs`, or `none` when `statSync` throws -/
  mtimeMs : String → Option Nat
  /-- how `fs.openSync(path, "a")` ends -/
  openSync : String → OpenResult

/-- The function `touch(file)` (lines 56–59): open the marker for append and
close it.  The result is `none` when `openSync` throws; otherwise the entry
the path names is in the directory afterwards. -/
def touch (env : Env) (s : State) (file : String) : Option State :=
  match env.openSync (pathJoin s.data file) with
  | OpenResult.throws => none
  | OpenResult.opened entry =>
    some { s with
      dir :=
        match entry with
        | some n => if n ∈ s.dir then s.dir else s.dir ++ [n]
        | none => s.dir
      fsCalls := s.fsCalls ++ [FsCall.openAppend (pathJoin s.data file)] }

/-- The call `fs.unlink(path, callback)`; `hasCallback` is `false` when the
second argument is left out.  Without a callback the call throws (`none`);
with one the delete is requested and completes later, outside the callback
that made the call. -/
def unlink (s : State) (path : String) (hasCallback : Bool) : Option State :=
  if hasCallback then
    some { s with fsCalls := s.fsCalls ++ [FsCall.unlink path] }
  else none

/-- The call `fs.unlinkSync(arg)`.  It throws (`none`) when `arg` is `undefined`
and when no entry has that path; otherwise the entry is removed. -/
def unlinkSync (s : State) (arg : Option String) : Option State :=
  match arg with
  | none => none
  | some p =>
    if s.dir.any (fun y => decide (pathJoin s.data y = p)) then
      some { s with
        dir := s.dir.filter (fun y => decide (pathJoin s.data y ≠ p))
        fsCalls := s.fsCalls ++ [FsCall.unlinkSync p] }
    else none

/-! ## Reconciliation (`clean`, lines 17–54) -/

/-- The object literal `{ filePath, stat, file }` built for each entry. -/
structure FileAndStat where
  /-- property `filePath` -/
  filePath : String
  /-- property `stat.mtimeMs` -/
  mtimeMs : Nat
  /-- property `file` -/
  file : String
  deriving DecidableEq, Repr

/-- Reading a string-valued property `o[key]` of the object literal
`{ filePath, stat, file }`; `none` is `undefined`, the value of a property
the object does not have. -/
def FileAndStat.prop (o : FileAndStat) (key : String) : Option String :=
  if key = "filePath" then some o.filePath
  else if key = "file" then some o.file
  else none

/-- Lines 33–41: the callback of `f.map`, `undefined` (`none`) when
`statSync` throws. -/
def statEntry (data : String) (env : Env) (file : String) : Option FileAndStat :=
  let filePath := pathJoin data file
  match env.mtimeMs filePath with
  | some m => some { filePath := filePath, mtimeMs := m, file := file }
  | none => none

/-- Lines 33–44: `f.map(...).filter(x => x).sort(...)`, ascending by
modification time; the sort is stable. -/
def filesAndStat (data : String) (env : Env) (f : List String) : List FileAndStat :=
  ((f.map (statEntry data env)).reduceOption).insertionSort
    (fun l r => l.mtimeMs ≤ r.mtimeMs)

/-- How a call of `clean` ends. -/
inductive Outcome where
  /-- the call `resolve()` was made -/
  | resolved
  /-- the callback returned without calling `resolve()`: the promise stays
  pending for ever -/
  | unsettled
  /-- an exception escaped the `readdir` callback -/
  | threw
  deriving DecidableEq, Repr

/-- Lines 45–49: the body of the `for` loop, run for each of the given
entries in turn.  The second component is `true` when a call threw; the state
is then the one at the throw. -/
def evictLoop (s : State) : List FileAndStat → State × Bool
  | [] => (s, false)
  | v :: vs =>
    match unlinkSync s (v.prop "filesAndStat") with
    | none => (s, true)
    | some s1 => evictLoop { s1 with filesSet := setDelete s1.filesSet v.file } vs

/-- The function `clean()`: one reconciliation pass. -/
def clean (env : Env) (s : State) : State × Outcome :=
  if env.readdirErr then (s, Outcome.unsettled)
  else
    let f := s.dir
    let s1 := { s with filesArray := f, filesSet := setOf f }
    if f.length ≤ s.maxEntries then (s1, Outcome.resolved)
    else
      let fas := filesAndStat s.data env f
      let n := fas.length - s.maxEntries
      match evictLoop s1 (fas.take n) with
      | (s2, true) => ({ s2 with crashed := true }, Outcome.threw)
      | (s2, false) => ({ s2 with filesArray := s2.filesArray.drop n }, Outcome.resolved)

/-! ## Request handlers (`http.createServer`, lines 109–188) -/

/-- An incoming request with its complete body. -/
structure Request where
  /-- property `req.method` -/
  method : String
  /-- property `req.url` -/
  url : String
  /-- the concatenated `data` chunks -/
  body : String
  deriving DecidableEq, Repr

/-- A completed response: the status code in effect when `res.end` was
called (200 unless `writeHead` set another) and the body passed to it. -/
structure Response where
  /-- status code -/
  statusCode : Nat
  /-- body -/
  body : String
  deriving DecidableEq, Repr

/-- Lines 169–175: the callback of `files.map` in the query branch, threaded
over the names.  The second component is the array of numbers `1`/`0` in
input order, or `none` when `touch` threw; the state is then the one at the
throw. -/
def queryLoop (env : Env) (s : State) : List String → State × Option (List Nat)
  | [] => (s, some [])
  | x :: xs =>
    if setHas s.filesSet x then
      match touch env s x with
      | none => (s, none)
      | some s1 =>
        let r := queryLoop env s1 xs
        (r.1, r.2.map (fun bits => 1 :: bits))
    else
      let r := queryLoop env s xs
      (r.1, r.2.map (fun bits => 0 :: bits))

/-- Lines 177–183: the callback of `files.forEach` in the commit branch,
threaded over the names.  The second component is `true` when `touch` threw;
the state is then the one at the throw. -/
def commitLoop (env : Env) (s : State) : List String → State × Bool
  | [] => (s, false)
  | file :: rest =>
    let s1 :=
      if !setHas s.filesSet file then
        { s with filesSet := setAdd s.filesSet file, filesArray := s.filesArray ++ [file] }
      else s
    match touch env s1 file with
    | none => (s1, true)
    | some s2 => commitLoop env s2 rest

/-- Lines 158–187: the `end` callback of a `POST /query` (`query = true`) or
`POST /commit` (`query = false`).  When `touch` throws, the exception leaves
the callback before `res.end` and before `watchSuspended` is reset. -/
def onEnd (env : Env) (query : Bool) (body : String) (s : State) :
    State × Option Response :=
  let files := parseBody body
  let s1 := { s with watchSuspended := true }
  if query then
    match queryLoop env s1 files with
    | (s2, none) => ({ s2 with crashed := true }, none)
    | (s2, some bits) =>
      ({ s2 with watchSuspended := false },
        some { statusCode := 200, body := jsJoin "" (bits.map numToString) ++ "\n" })
  else
    match commitLoop env s1 files with
    | (s2, true) => ({ s2 with crashed := true }, none)
    | (s2, false) =>
      ({ s2 with watchSuspended := false }, some { statusCode := 200, body := "" })

/-- Line 115: `filesArray.forEach(x => fs.unlink(path.join(data, x)))`, the
call being made without a callback.  The second component is `true` when a
call threw; the state is then the one at the throw. -/
def clearLoop (s : State) : List String → State × Bool
  | [] => (s, false)
  | x :: xs =>
    match unlink s (pathJoin s.data x) false with
    | none => (s, true)
    | some s1 => clearLoop s1 xs

/-- Lines 114–118, the `/clear` arm: `fs.unlink` for every name of
`filesArray`, then both index structures are replaced by empty ones.
`res.end` is not called on this arm. -/
def clearAll (s : State) : State :=
  match clearLoop s s.filesArray with
  | (s1, true) => { s1 with crashed := true }
  | (s1, false) => { s1 with filesArray := [], filesSet := [] }

/-- The request listener together with the `end` callback it registers.  The
second component is the completed response, `none` when the handler ends
without ever calling `res.end`. -/
def handle (env : Env) (req : Request) (s : State) : State × Option Response :=
  if req.method = "GET" then
    if req.url = "/clear" then (clearAll s, none)
    else if req.url = "/list" then
      (s, some { statusCode := 200, body := jsJoin "\n" s.filesArray ++ "\n" })
    else (s, some { statusCode := 404, body := "" })
  else if req.method ≠ "POST" then (s, some { statusCode := 403, body := "" })
  else if req.url = "/query" then onEnd env true req.body s
  else if req.url = "/commit" then onEnd env false req.body s
  else (s, some { statusCode := 404, body := "" })

/-- A request sent to the process: a terminated process runs no listener and
answers nothing. -/
def serve (env : Env) (req : Request) (s : State) : State × Option Response :=
  if s.crashed then (s, none) else handle env req s

/-! ## Reconciliation triggers (lines 190–207) -/

/-- The `fs.watch` callback (lines 195–206), up to scheduling the timeout. -/
def onWatch (s : State) : State :=
  if s.watchSuspended || s.cleanPending then s
  else { s with cleanPending := true, timeouts := s.timeouts + 1 }

/-- The debounce timeout fires (lines 201–205): `clean()` runs, and
`cleanPending` is reset when its promise resolves. -/
def onDebounce (env : Env) (s : State) : State :=
  if s.timeouts = 0 then s
  else
    let r := clean env { s with timeouts := s.timeouts - 1 }
    match r.2 with
    | Outcome.resolved => { r.1 with cleanPending := false }
    | _ => r.1

/-- The periodic timer fires (line 193): `setInterval(clean, ...)`. -/
def onTimer (env : Env) (s : State) : State :=
  (clean env s).1

/-! ## The running server -/

/-- What can happen to a listening server. -/
inductive Event where
  /-- a complete HTTP request arrives -/
  | request (env : Env) (req : Request)
  /-- the directory watch reports a change -/
  | watch
  /-- a debounce timeout fires -/
  | debounce (env : Env)
  /-- the periodic timer fires -/
  | timer (env : Env)
  /-- another process replaces the directory contents -/
  | external (dir : List String)

/-- One event handled by the process; a terminated process handles none. -/
def step (s : State) (e : Event) : State :=
  if s.crashed then s
  else
    match e with
    | Event.request env req => (handle env req s).1
    | Event.watch => onWatch s
    | Event.debounce env => onDebounce env s
    | Event.timer env => onTimer env s
    | Event.external d => { s with dir := d }

/-- A sequence of events handled in order. -/
def run (s : State) (es : List Event) : State :=
  es.foldl step s

/-- The module-level variables before the first `clean()`; the two index
variables are not yet assigned and stand empty. -/
def initial (data : String) (maxEntries : Nat) (dir : List String) : State :=
  { data := data, maxEntries := maxEntries, filesArray := [], filesSet := [],
    watchSuspended := false, cleanPending := false, timeouts := 0,
    dir := dir, fsCalls := [], crashed := false }

/-- An event the environment can deliver: a directory never lists one name
twice. -/
def Event.WellFormed : Event → Prop
  | Event.external d => d.Nodup
  | _ => True

/-- The states of a listening server: the first `clean()` resolved on a
directory without repeated names (line 190), then any events follow. -/
inductive Reachable : State → Prop where
  | boot (data : String) (maxEntries : Nat) (dir : List String) (env : Env) :
      dir.Nodup →
      (clean env (initial data maxEntries dir)).2 = Outcome.resolved →
      Reachable (clean env (initial data maxEntries dir)).1
  | next (s : State) (e : Event) :
      Reachable s → e.WellFormed → Reachable (step s e)

/-- The index invariant of the data model: set and sequence hold the same
names and the sequence repeats none. -/
def IndexConsistent (s : State) : Prop :=
  (∀ x, x ∈ s.filesSet ↔ x ∈ s.filesArray) ∧ s.filesArray.Nodup

/-! ## Sample inputs -/

/-- The last segment of a path. -/
def baseName (p : String) : String :=
  String.mk ((splitChars '/' p.data).getLast?.getD [])

/-- An environment in which every call succeeds: paths stat to the given
modification times (unlisted ones to 0), and an opened path names the
directory entry of its last segment. -/
def envOk (mt : List (String × Nat)) : Env :=
  { readdirErr := false
    mtimeMs := fun p => some ((mt.lookup p).getD 0)
    openSync := fun p => OpenResult.opened (some (baseName p)) }

/-- An environment in which `data/sub` is a directory and `data/x` does not
exist: opening `data/sub` or `data/x/y` for append throws, every other call
succeeds. -/
def envSub : Env :=
  { readdirErr := false
    mtimeMs := fun _ => some 0
    openSync := fun p =>
      if p = "data/sub" ∨ p = "data/x/y" then OpenResult.throws
      else OpenResult.opened (some (baseName p)) }

/-- An environment whose directory enumeration fails. -/
def envUnreadable : Env :=
  { readdirErr := true, mtimeMs := fun _ => none, openSync := fun _ => OpenResult.throws }

/-- A sample state: index `["b"]`, directory `["b"]`, capacity 5. -/
def sampleB : State :=
  { initial "./data" 5 ["b"] with filesArray := ["b"], filesSet := ["b"] }

/-- A directory over capacity: capacity 1, markers "a" and "b". -/
def overfull : State :=
  initial "./data" 1 ["a", "b"]

/-- Both markers of `overfull` stat successfully, "a" being the older. -/
def envAB : Env :=
  envOk [("data/a", 1), ("data/b", 2)]

/-- A listening server: the first pass resolved on the directory `["a"]`
with capacity 5. -/
def bootA : State :=
  (clean (envOk []) (initial "./data" 5 ["a"])).1

/-- The state `bootA` after a commit whose body names "b" twice. -/
def afterCommit : State :=
  step bootA (Event.request (envOk []) ⟨"POST", "/commit", "b,b"⟩)

/-- A listening server whose directory holds the marker "a" and the
subdirectory "sub": the first pass lists both. -/
def bootSub : State :=
  (clean envSub (initial "./data" 5 ["a", "sub"])).1

/-- The state `bootA` after a commit of the name "x/y", whose open throws. -/
def afterThrow : State :=
  step bootA (Event.request envSub ⟨"POST", "/commit", "x/y"⟩)

/-! ## Body parsing: specification side -/

/-- The delimiter the parser uses for a body: the comma when the body holds
one, the newline otherwise. -/
def delimiterOf (body : String) : Char :=
  if ',' ∈ body.data then ',' else '\n'

/-- The tokens of `body` separated by `sep`, said without reference to an
algorithm: a non-empty list of strings, none holding `sep`, that gives `body`
back when written out with one `sep` between neighbours. -/
def IsTokenList (sep : Char) (body : String) (ts : List String) : Prop :=
  ts ≠ [] ∧ (∀ t ∈ ts, sep ∉ t.data) ∧ jsJoin (String.singleton sep) ts = body

/-! ## Lemmas on the library functions -/

theorem splitChars_ne_nil (sep : Char) (cs : List Char) : splitChars sep cs ≠ [] := by
  cases cs with
  | nil => simp [splitChars]
  | cons c cs =>
    unfold splitChars
    split
    · simp
    · split <;> simp

theorem splitChars_no_sep (sep : Char) (cs : List Char) :
    ∀ t ∈ splitChars sep cs, sep ∉ t := by
  induction cs with
  | nil => simp [splitChars]
  | cons c cs ih =>
    unfold splitChars
    split
    · intro t ht
      rcases List.mem_cons.mp ht with h | h
      · subst h; simp
      · exact ih t h
    · rename_i hc
      split
      · rename_i h0
        exact absurd h0 (splitChars_ne_nil sep cs)
      · rename_i t ts hts
        intro u hu
        rw [hts] at ih
        rcases List.mem_cons.mp hu with h | h
        · subst h
          have := ih t (List.mem_cons_self _ _)
          simp only [List.mem_cons, not_or]
          exact ⟨fun e => hc e.symm, this⟩
        · exact ih u (List.mem_cons_of_mem _ h)

theorem jsJoin_cons_data (sep x : String) (xs : List String) (h : xs ≠ []) :
    (jsJoin sep (x :: xs)).data = x.data ++ sep.data ++ (jsJoin sep xs).data := by
  cases xs with
  | nil => exact absurd rfl h
  | cons y rest => simp [jsJoin, String.data_append]

theorem jsJoin_head_cons (sep : String) (c : Char) (t : List Char) (rest : List String) :
    (jsJoin sep (String.mk (c :: t) :: rest)).data
      = c :: (jsJoin sep (String.mk t :: rest)).data := by
  cases rest with
  | nil => simp [jsJoin]
  | cons y r => simp [jsJoin, String.data_append]

theorem jsJoin_splitChars (sep : Char) (cs : List Char) :
    (jsJoin (String.singleton sep) ((splitChars sep cs).map String.mk)).data = cs := by
  induction cs with
  | nil => simp [splitChars, jsJoin]
  | cons c cs ih =>
    unfold splitChars
    split
    · rename_i hc
      rw [List.map_cons, jsJoin_cons_data _ _ _ (by simpa using splitChars_ne_nil sep cs), ih]
      simp [String.singleton, hc]
    · split
      · rename_i h0
        exact absurd h0 (splitChars_ne_nil sep cs)
      · rename_i t ts hts
        rw [hts] at ih
        rw [List.map_cons, jsJoin_head_cons]
        rw [List.map_cons] at ih
        rw [ih]

theorem jsSplit_isTokenList (sep : Char) (body : String) :
    IsTokenList sep body (jsSplit sep body) := by
  refine ⟨?_, ?_, ?_⟩
  · simpa [jsSplit] using splitChars_ne_nil sep body.data
  · intro t ht
    simp only [jsSplit, List.mem_map] at ht
    obtain ⟨u, hu, rfl⟩ := ht
    exact splitChars_no_sep sep body.data u hu
  · apply String.ext
    exact jsJoin_splitChars sep body.data

theorem splitChars_of_not_mem (sep : Char) (t : List Char) (h : sep ∉ t) :
    splitChars sep t = [t] := by
  induction t with
  | nil => rfl
  | cons c t ih =>
    have hc : c ≠ sep := fun e => h (e ▸ List.mem_cons_self _ _)
    have ht : sep ∉ t := fun hm => h (List.mem_cons_of_mem _ hm)
    unfold splitChars
    rw [if_neg hc, ih ht]

theorem splitChars_cons_of_ne (sep c : Char) (cs : List Char) (hc : c ≠ sep) :
    splitChars sep (c :: cs)
      = match splitChars sep cs with
        | [] => [[c]]
        | t :: ts => (c :: t) :: ts := by
  conv_lhs => unfold splitChars
  rw [if_neg hc]

theorem splitChars_append_sep (sep : Char) (t r : List Char) (h : sep ∉ t) :
    splitChars sep (t ++ sep :: r) = t :: splitChars sep r := by
  induction t with
  | nil => simp [splitChars]
  | cons c t ih =>
    have hc : c ≠ sep := fun e => h (e ▸ List.mem_cons_self _ _)
    have ht : sep ∉ t := fun hm => h (List.mem_cons_of_mem _ hm)
    rw [List.cons_append, splitChars_cons_of_ne sep c _ hc, ih ht]

theorem splitChars_jsJoin (sep : Char) (ts : List String) (hne : ts ≠ [])
    (h : ∀ t ∈ ts, sep ∉ t.data) :
    splitChars sep (jsJoin (String.singleton sep) ts).data = ts.map String.data := by
  induction ts with
  | nil => exact absurd rfl hne
  | cons t rest ih =>
    have ht : sep ∉ t.data := h t (List.mem_cons_self _ _)
    cases rest with
    | nil => simpa [jsJoin] using splitChars_of_not_mem sep t.data ht
    | cons u rest =>
      have hr := ih (by simp) (fun x hx => h x (List.mem_cons_of_mem _ hx))
      rw [jsJoin_cons_data _ _ _ (by simp)]
      have : t.data ++ (String.singleton sep).data ++ (jsJoin (String.singleton sep) (u :: rest)).data
          = t.data ++ sep :: (jsJoin (String.singleton sep) (u :: rest)).data := by
        simp [String.singleton]
      rw [this, splitChars_append_sep sep _ _ ht, hr]
      rfl

/-- A body has one token list only: the one `split` computes. -/
theorem tokenList_unique (sep : Char) (body : String) (ts : List String)
    (h : IsTokenList sep body ts) : ts = jsSplit sep body := by
  obtain ⟨hne, hsep, hj⟩ := h
  unfold jsSplit
  rw [← hj, splitChars_jsJoin sep ts hne hsep, List.map_map]
  have hid : (String.mk ∘ String.data) = id := by
    funext x
    rfl
  rw [hid, List.map_id]

theorem parseBody_eq (body : String) :
    parseBody body = (jsSplit (delimiterOf body) body).filter (fun t => decide (t ≠ "")) := by
  unfold parseBody delimiterOf jsIncludes
  by_cases h : ',' ∈ body.data
  · simp only [h, decide_True, if_true]; rfl
  · simp only [h, decide_False, if_false]
    rfl

theorem jsJoin_empty_data (xs : List String) :
    (jsJoin "" xs).data = (xs.map String.data).flatten := by
  induction xs with
  | nil => rfl
  | cons x xs ih =>
    cases xs with
    | nil => simp [jsJoin]
    | cons y rest =>
      rw [jsJoin_cons_data _ _ _ (by simp), ih]
      simp

theorem numToString_one : (numToString 1).data = ['1'] := by decide

theorem numToString_zero : (numToString 0).data = ['0'] := by decide

/-! ## Lemmas on `touch` and the query loop -/

theorem touch_eq_none (env : Env) (s : State) (x : String) :
    touch env s x = none ↔ env.openSync (pathJoin s.data x) = OpenResult.throws := by
  unfold touch
  cases h : env.openSync (pathJoin s.data x) <;> simp

theorem touch_some (env : Env) (s s1 : State) (x : String)
    (h : touch env s x = some s1) :
    s1 = { s with dir := s1.dir, fsCalls := s1.fsCalls }
    ∧ s1.fsCalls = s.fsCalls ++ [FsCall.openAppend (pathJoin s.data x)]
    ∧ (s.dir.Nodup → s1.dir.Nodup) := by
  unfold touch at h
  cases ho : env.openSync (pathJoin s.data x) with
  | throws => rw [ho] at h; exact absurd h (by simp)
  | opened entry =>
    rw [ho] at h
    simp only [Option.some.injEq] at h
    subst h
    refine ⟨rfl, rfl, ?_⟩
    intro hd
    cases entry with
    | none => exact hd
    | some n =>
      show (if n ∈ s.dir then s.dir else s.dir ++ [n]).Nodup
      by_cases hn : n ∈ s.dir
      · rw [if_pos hn]; exact hd
      · rw [if_neg hn, List.nodup_append]
        refine ⟨hd, List.nodup_singleton n, ?_⟩
        intro a ha hb
        rw [List.mem_singleton] at hb
        exact hn (hb ▸ ha)

/-- The fields that neither loop of the `end` callback writes. -/
def frame (s : State) : String × Nat × Bool × Bool × Nat × Bool :=
  (s.data, s.maxEntries, s.watchSuspended, s.cleanPending, s.timeouts, s.crashed)

theorem touch_frame (env : Env) (s s1 : State) (x : String)
    (h : touch env s x = some s1) :
    frame s1 = frame s ∧ s1.filesSet = s.filesSet ∧ s1.filesArray = s.filesArray := by
  have h1 := (touch_some env s s1 x h).1
  rw [h1]
  exact ⟨rfl, rfl, rfl⟩

theorem queryLoop_frame (env : Env) (s : State) (xs : List String) :
    frame (queryLoop env s xs).1 = frame s
    ∧ (queryLoop env s xs).1.filesSet = s.filesSet
    ∧ (queryLoop env s xs).1.filesArray = s.filesArray := by
  induction xs generalizing s with
  | nil => exact ⟨rfl, rfl, rfl⟩
  | cons x xs ih =>
    unfold queryLoop
    split
    · cases ht : touch env s x with
      | none => exact ⟨rfl, rfl, rfl⟩
      | some s1 =>
        obtain ⟨f1, f2, f3⟩ := touch_frame env s s1 x ht
        obtain ⟨g1, g2, g3⟩ := ih s1
        exact ⟨g1.trans f1, g2.trans f2, g3.trans f3⟩
    · exact ih s

theorem queryLoop_dir_nodup (env : Env) (s : State) (xs : List String)
    (h : s.dir.Nodup) : (queryLoop env s xs).1.dir.Nodup := by
  induction xs generalizing s with
  | nil => exact h
  | cons x xs ih =>
    unfold queryLoop
    split
    · cases ht : touch env s x with
      | none => exact h
      | some s1 => exact ih s1 ((touch_some env s s1 x ht).2.2 h)
    · exact ih s h

theorem queryLoop_bits (env : Env) (s : State) (xs : List String)
    (hopen : ∀ x ∈ xs, x ∈ s.filesSet →
      env.openSync (pathJoin s.data x) ≠ OpenResult.throws) :
    (queryLoop env s xs).2 = some (xs.map (fun x => if x ∈ s.filesSet then 1 else 0)) := by
  induction xs generalizing s with
  | nil => rfl
  | cons x xs ih =>
    unfold queryLoop
    by_cases hx : x ∈ s.filesSet
    · simp only [setHas, hx, decide_True, if_true]
      cases ht : touch env s x with
      | none =>
        exact absurd ((touch_eq_none env s x).mp ht) (hopen x (List.mem_cons_self _ _) hx)
      | some s1 =>
        obtain ⟨f1, f2, -⟩ := touch_frame env s s1 x ht
        have hd : s1.data = s.data := congrArg Prod.fst f1
        have := ih s1 (by
          intro y hy hys
          rw [hd]
          exact hopen y (List.mem_cons_of_mem _ hy) (f2 ▸ hys))
        simp only [this, f2, Option.map_some', List.map_cons, if_pos hx]
    · simp only [setHas, hx, decide_False, Bool.false_eq_true, if_false]
      have := ih s (fun y hy hys => hopen y (List.mem_cons_of_mem _ hy) hys)
      simp only [this, Option.map_some', List.map_cons, if_neg hx]

theorem queryLoop_fsCalls (env : Env) (s : State) (xs : List String) :
    ∃ l, (queryLoop env s xs).1.fsCalls = s.fsCalls ++ l
      ∧ ∀ c ∈ l, ∃ x ∈ xs, x ∈ s.filesSet ∧ c = FsCall.openAppend (pathJoin s.data x) := by
  induction xs generalizing s with
  | nil => exact ⟨[], by simp [queryLoop], by simp⟩
  | cons x xs ih =>
    unfold queryLoop
    by_cases hx : x ∈ s.filesSet
    · simp only [setHas, hx, decide_True, if_true]
      cases ht : touch env s x with
      | none => exact ⟨[], by simp, by simp⟩
      | some s1 =>
        obtain ⟨f1, f2, -⟩ := touch_frame env s s1 x ht
        have hd : s1.data = s.data := congrArg Prod.fst f1
        have hc := (touch_some env s s1 x ht).2.1
        obtain ⟨l, hl, hall⟩ := ih s1
        refine ⟨FsCall.openAppend (pathJoin s.data x) :: l, ?_, ?_⟩
        · show (queryLoop env s1 xs).1.fsCalls = _
          rw [hl, hc]
          simp
        · intro c hcm
          rcases List.mem_cons.mp hcm with h1 | h1
          · exact ⟨x, List.mem_cons_self _ _, hx, h1⟩
          · obtain ⟨y, hy, hys, hcy⟩ := hall c h1
            exact ⟨y, List.mem_cons_of_mem _ hy, f2 ▸ hys, by rw [hcy, hd]⟩
    · simp only [setHas, hx, decide_False, Bool.false_eq_true, if_false]
      obtain ⟨l, hl, hall⟩ := ih s
      refine ⟨l, hl, ?_⟩
      intro c hcm
      obtain ⟨y, hy, hys, hcy⟩ := hall c hcm
      exact ⟨y, List.mem_cons_of_mem _ hy, hys, hcy⟩

theorem queryLoop_miss (env : Env) (s : State) (xs : List String)
    (h : ∀ x ∈ xs, x ∉ s.filesSet) :
    (queryLoop env s xs).1 = s := by
  induction xs with
  | nil => rfl
  | cons x xs ih =>
    unfold queryLoop
    have hx : x ∉ s.filesSet := h x (List.mem_cons_self _ _)
    simp only [setHas, hx, decide_False, Bool.false_eq_true, if_false]
    exact ih (fun y hy => h y (List.mem_cons_of_mem _ hy))

theorem bits_body_data (p : String → Prop) [DecidablePred p] (xs : List String) :
    (jsJoin "" ((xs.map (fun x => if p x then 1 else 0)).map numToString) ++ "\n").data
      = xs.map (fun x => if p x then '1' else '0') ++ ['\n'] := by
  rw [String.data_append, jsJoin_empty_data]
  congr 1
  induction xs with
  | nil => rfl
  | cons x xs ih =>
    simp only [List.map_cons, List.flatten_cons, ih]
    by_cases h : p x
    · simp [h, numToString_one]
    · simp [h, numToString_zero]

/-- The response of the query callback when no open of a queried name that
is in the index throws. -/
theorem query_response_aux (env : Env) (s : State) (body : String)
    (hopen : ∀ x ∈ parseBody body, x ∈ s.filesSet →
      env.openSync (pathJoin s.data x) ≠ OpenResult.throws) :
    ∃ r, (handle env ⟨"POST", "/query", body⟩ s).2 = some r
      ∧ r.statusCode = 200
      ∧ r.body.data
          = (parseBody body).map (fun x => if x ∈ s.filesSet then '1' else '0') ++ ['\n']
      ∧ r.body.length = (parseBody body).length + 1 := by
  have hq := queryLoop_bits env { s with watchSuspended := true } (parseBody body) hopen
  have hb : (handle env ⟨"POST", "/query", body⟩ s).2
        = some ⟨200, jsJoin "" (((parseBody body).map
            (fun x => if x ∈ s.filesSet then 1 else 0)).map numToString) ++ "\n"⟩ := by
    have hh : handle env ⟨"POST", "/query", body⟩ s = onEnd env true body s := by
      simp [handle]
    rw [hh]
    unfold onEnd
    simp only [if_true]
    cases hql : queryLoop env { s with watchSuspended := true } (parseBody body) with
    | mk s2 bits =>
      rw [hql] at hq
      simp only at hq
      subst hq
      rfl
  refine ⟨_, hb, rfl, ?_, ?_⟩
  · exact bits_body_data (fun x => x ∈ s.filesSet) (parseBody body)
  · have h := congrArg List.length
      (bits_body_data (fun x => x ∈ s.filesSet) (parseBody body))
    rw [List.length_append, List.length_map] at h
    exact h

/-! ## Lemmas on the commit loop -/

theorem setAdd_mem (set : List String) (x y : String) :
    y ∈ setAdd set x ↔ y ∈ set ∨ y = x := by
  unfold setAdd
  split
  · rename_i h
    constructor
    · exact Or.inl
    · rintro (h1 | h1)
      · exact h1
      · exact h1 ▸ h
  · simp

/-- Lines 178–181: the index update of one commit iteration. -/
def commitAdd (s : State) (file : String) : State :=
  if !setHas s.filesSet file then
    { s with filesSet := setAdd s.filesSet file, filesArray := s.filesArray ++ [file] }
  else s

theorem commitLoop_cons (env : Env) (s : State) (file : String) (rest : List String) :
    commitLoop env s (file :: rest)
      = match touch env (commitAdd s file) file with
        | none => (commitAdd s file, true)
        | some s2 => commitLoop env s2 rest := by
  conv_lhs => unfold commitLoop
  rfl

theorem commitAdd_frame (s : State) (x : String) :
    frame (commitAdd s x) = frame s ∧ (commitAdd s x).dir = s.dir := by
  unfold commitAdd
  split <;> exact ⟨rfl, rfl⟩

theorem commitAdd_filesSet (s : State) (x y : String) :
    y ∈ (commitAdd s x).filesSet ↔ y ∈ s.filesSet ∨ y = x := by
  unfold commitAdd
  by_cases h : x ∈ s.filesSet
  · simp only [setHas, h, decide_True, Bool.not_true, Bool.false_eq_true, if_false]
    constructor
    · exact Or.inl
    · rintro (h1 | h1)
      · exact h1
      · exact h1 ▸ h
  · simp only [setHas, h, decide_False, Bool.not_false, if_true]
    exact setAdd_mem _ _ _

theorem commitLoop_frame (env : Env) (s : State) (xs : List String) :
    frame (commitLoop env s xs).1 = frame s := by
  induction xs generalizing s with
  | nil => rfl
  | cons x xs ih =>
    rw [commitLoop_cons]
    cases ht : touch env (commitAdd s x) x with
    | none => exact (commitAdd_frame s x).1
    | some s2 =>
      exact (ih s2).trans ((touch_frame env _ s2 x ht).1.trans (commitAdd_frame s x).1)

theorem commitLoop_filesSet (env : Env) (s : State) (files : List String)
    (hopen : ∀ x ∈ files, env.openSync (pathJoin s.data x) ≠ OpenResult.throws) :
    (commitLoop env s files).2 = false
    ∧ ∀ y, y ∈ (commitLoop env s files).1.filesSet ↔ y ∈ s.filesSet ∨ y ∈ files := by
  induction files generalizing s with
  | nil => exact ⟨rfl, by simp [commitLoop]⟩
  | cons x xs ih =>
    rw [commitLoop_cons]
    have hda : (commitAdd s x).data = s.data := congrArg Prod.fst (commitAdd_frame s x).1
    cases ht : touch env (commitAdd s x) x with
    | none =>
      have := (touch_eq_none env _ x).mp ht
      rw [hda] at this
      exact absurd this (hopen x (List.mem_cons_self _ _))
    | some s2 =>
      obtain ⟨f1, f2, -⟩ := touch_frame env _ s2 x ht
      have hd : s2.data = s.data := (congrArg Prod.fst f1).trans hda
      obtain ⟨h1, h2⟩ := ih s2 (by
        intro y hy
        rw [hd]
        exact hopen y (List.mem_cons_of_mem _ hy))
      refine ⟨h1, ?_⟩
      intro y
      show y ∈ (commitLoop env s2 xs).1.filesSet ↔ _
      rw [h2 y, f2, commitAdd_filesSet, List.mem_cons]
      tauto

/-! ## Lemmas on `/clear` -/

theorem clearLoop_eq (s : State) (xs : List String) :
    clearLoop s xs = (s, !xs.isEmpty) := by
  cases xs with
  | nil => rfl
  | cons x xs => rfl

theorem clearAll_eq (s : State) :
    clearAll s =
      if s.filesArray = [] then { s with filesArray := [], filesSet := [] }
      else { s with crashed := true } := by
  unfold clearAll
  rw [clearLoop_eq]
  by_cases h : s.filesArray = []
  · simp [h]
  · have he : s.filesArray.isEmpty = false := by
      cases hs : s.filesArray with
      | nil => exact absurd hs h
      | cons x xs => rfl
    simp [h, he]

/-! ## Lemmas on `clean` -/

theorem prop_filesAndStat (v : FileAndStat) : v.prop "filesAndStat" = none := by
  unfold FileAndStat.prop
  rw [if_neg (by decide), if_neg (by decide)]

theorem evictLoop_eq (s : State) (l : List FileAndStat) :
    evictLoop s l = (s, !l.isEmpty) := by
  cases l with
  | nil => rfl
  | cons v vs =>
    unfold evictLoop
    rw [prop_filesAndStat]
    rfl

/-- The three ways a pass of `clean` can go. -/
theorem clean_eq (env : Env) (s : State) :
    clean env s =
      if env.readdirErr then (s, Outcome.unsettled)
      else if s.dir.length ≤ s.maxEntries
          ∨ (filesAndStat s.data env s.dir).length ≤ s.maxEntries then
        ({ s with filesArray := s.dir, filesSet := setOf s.dir }, Outcome.resolved)
      else
        ({ s with filesArray := s.dir, filesSet := setOf s.dir, crashed := true },
          Outcome.threw) := by
  unfold clean
  by_cases h0 : env.readdirErr
  · simp [h0]
  · simp only [h0, Bool.false_eq_true, if_false]
    by_cases h1 : s.dir.length ≤ s.maxEntries
    · simp [h1]
    · simp only [h1, if_false, false_or, evictLoop_eq]
      by_cases h2 : (filesAndStat s.data env s.dir).length ≤ s.maxEntries
      · have hn : (filesAndStat s.data env s.dir).length - s.maxEntries = 0 := by omega
        simp [h2, hn]
      · have hn : 0 < (filesAndStat s.data env s.dir).length - s.maxEntries := by omega
        have hne : List.take ((filesAndStat s.data env s.dir).length - s.maxEntries)
            (filesAndStat s.data env s.dir) ≠ [] := by
          intro he
          have := congrArg List.length he
          rw [List.length_take] at this
          simp at this
          omega
        cases hl : List.take ((filesAndStat s.data env s.dir).length - s.maxEntries)
            (filesAndStat s.data env s.dir) with
        | nil => exact absurd hl hne
        | cons v vs => simp [h2]

theorem filesAndStat_length (data : String) (env : Env) (f : List String)
    (h : ∀ x ∈ f, (env.mtimeMs (pathJoin data x)).isSome = true) :
    (filesAndStat data env f).length = f.length := by
  unfold filesAndStat
  rw [List.length_insertionSort]
  induction f with
  | nil => rfl
  | cons x xs ih =>
    have hx := h x (List.mem_cons_self _ _)
    obtain ⟨m, hm⟩ := Option.isSome_iff_exists.mp hx
    rw [List.map_cons]
    have : statEntry data env x
        = some { filePath := pathJoin data x, mtimeMs := m, file := x } := by
      simp [statEntry, hm]
    rw [this, List.reduceOption_cons_of_some, List.length_cons,
      ih (fun y hy => h y (List.mem_cons_of_mem _ hy)), List.length_cons]

theorem mem_setOf (xs : List String) (x : String) : x ∈ setOf xs ↔ x ∈ xs := by
  induction xs with
  | nil => simp [setOf]
  | cons y ys ih =>
    simp only [setOf, List.mem_cons, List.mem_filter, ih, decide_eq_true_eq]
    by_cases h : x = y
    · simp [h]
    · simp [h]

/-! ## The index invariant along the handlers and triggers -/

/-- The inductive invariant: the directory lists no name twice and the index
is consistent. -/
def Inv (s : State) : Prop :=
  s.dir.Nodup ∧ IndexConsistent s

theorem commitAdd_inv (s : State) (x : String) (h : Inv s) : Inv (commitAdd s x) := by
  obtain ⟨hd, hm, hn⟩ := h
  unfold commitAdd
  by_cases hx : x ∈ s.filesSet
  · simp only [setHas, hx, decide_True, Bool.not_true, Bool.false_eq_true, if_false]
    exact ⟨hd, hm, hn⟩
  · simp only [setHas, hx, decide_False, Bool.not_false, if_true]
    refine ⟨hd, ?_, ?_⟩
    · intro y
      show y ∈ setAdd s.filesSet x ↔ y ∈ s.filesArray ++ [x]
      rw [setAdd_mem, List.mem_append, List.mem_singleton, hm y]
    · show (s.filesArray ++ [x]).Nodup
      rw [List.nodup_append]
      refine ⟨hn, List.nodup_singleton x, ?_⟩
      intro a ha hb
      rw [List.mem_singleton] at hb
      exact hx ((hm x).mpr (hb ▸ ha))

theorem touch_inv (env : Env) (s s1 : State) (x : String)
    (ht : touch env s x = some s1) (h : Inv s) : Inv s1 := by
  obtain ⟨-, f2, f3⟩ := touch_frame env s s1 x ht
  refine ⟨(touch_some env s s1 x ht).2.2 h.1, ?_, ?_⟩
  · intro y; rw [f2, f3]; exact h.2.1 y
  · rw [f3]; exact h.2.2

theorem commitLoop_inv (env : Env) (s : State) (xs : List String) (h : Inv s) :
    Inv (commitLoop env s xs).1 := by
  induction xs generalizing s with
  | nil => exact h
  | cons x xs ih =>
    rw [commitLoop_cons]
    cases ht : touch env (commitAdd s x) x with
    | none => exact commitAdd_inv s x h
    | some s2 => exact ih s2 (touch_inv env _ s2 x ht (commitAdd_inv s x h))

theorem queryLoop_inv (env : Env) (s : State) (xs : List String) (h : Inv s) :
    Inv (queryLoop env s xs).1 := by
  obtain ⟨-, f2, f3⟩ := queryLoop_frame env s xs
  refine ⟨queryLoop_dir_nodup env s xs h.1, ?_, ?_⟩
  · intro y; rw [f2, f3]; exact h.2.1 y
  · rw [f3]; exact h.2.2

theorem onEnd_inv (env : Env) (query : Bool) (body : String) (s : State) (h : Inv s) :
    Inv (onEnd env query body s).1 := by
  have h1 : Inv { s with watchSuspended := true } := h
  unfold onEnd
  cases query with
  | true =>
    have hq := queryLoop_inv env _ (parseBody body) h1
    simp only [if_true]
    cases hql : queryLoop env { s with watchSuspended := true } (parseBody body) with
    | mk s2 bits =>
      rw [hql] at hq
      cases bits <;> exact hq
  | false =>
    have hc := commitLoop_inv env _ (parseBody body) h1
    simp only [Bool.false_eq_true, if_false]
    cases hcl : commitLoop env { s with watchSuspended := true } (parseBody body) with
    | mk s2 threw =>
      rw [hcl] at hc
      cases threw <;> exact hc

theorem clearAll_inv (s : State) (h : Inv s) : Inv (clearAll s) := by
  rw [clearAll_eq]
  split
  · exact ⟨h.1, fun y => Iff.rfl, List.nodup_nil⟩
  · exact h

theorem handle_inv (env : Env) (req : Request) (s : State) (h : Inv s) :
    Inv (handle env req s).1 := by
  unfold handle
  split
  · split
    · exact clearAll_inv s h
    · split <;> exact h
  · split
    · exact h
    · split
      · exact onEnd_inv env true _ s h
      · split
        · exact onEnd_inv env false _ s h
        · exact h

theorem clean_inv (env : Env) (s : State) (h : Inv s) : Inv (clean env s).1 := by
  have hr : Inv { s with filesArray := s.dir, filesSet := setOf s.dir } :=
    ⟨h.1, fun y => mem_setOf s.dir y, h.1⟩
  rw [clean_eq]
  split
  · exact h
  · split
    · exact hr
    · exact hr

theorem onDebounce_inv (env : Env) (s : State) (h : Inv s) : Inv (onDebounce env s) := by
  unfold onDebounce
  split
  · exact h
  · have hc := clean_inv env { s with timeouts := s.timeouts - 1 } h
    dsimp only
    split
    · exact hc
    · exact hc

theorem step_inv (s : State) (e : Event) (he : e.WellFormed) (h : Inv s) :
    Inv (step s e) := by
  unfold step
  split
  · exact h
  · cases e with
    | request env req => exact handle_inv env req s h
    | watch =>
      show Inv (onWatch s)
      unfold onWatch
      split
      · exact h
      · exact h
    | debounce env => exact onDebounce_inv env s h
    | timer env => exact clean_inv env s h
    | external d => exact ⟨he, h.2⟩

theorem reachable_inv (s : State) (h : Reachable s) : Inv s := by
  induction h with
  | boot data maxEntries dir env hd _ =>
    exact clean_inv env _ ⟨hd, fun y => Iff.rfl, List.nodup_nil⟩
  | next s e _ he ih => exact step_inv s e he ih

/-! ## Flags along the handlers and triggers -/

/-- The two fields that only the watch callback and the debounce timeout
write. -/
def pendingFlags (s : State) : Bool × Nat :=
  (s.cleanPending, s.timeouts)

theorem pendingFlags_of_frame (s t : State) (h : frame s = frame t) :
    pendingFlags s = pendingFlags t := by
  unfold frame at h
  simp only [Prod.mk.injEq] at h
  unfold pendingFlags
  rw [h.2.2.2.1, h.2.2.2.2.1]

theorem onEnd_pendingFlags (env : Env) (query : Bool) (body : String) (s : State) :
    pendingFlags (onEnd env query body s).1 = pendingFlags s := by
  unfold onEnd
  cases query with
  | true =>
    have hq := pendingFlags_of_frame _ _
      (queryLoop_frame env { s with watchSuspended := true } (parseBody body)).1
    simp only [if_true]
    cases hql : queryLoop env { s with watchSuspended := true } (parseBody body) with
    | mk s2 bits =>
      rw [hql] at hq
      cases bits <;> exact hq
  | false =>
    have hc := pendingFlags_of_frame _ _
      (commitLoop_frame env { s with watchSuspended := true } (parseBody body))
    simp only [Bool.false_eq_true, if_false]
    cases hcl : commitLoop env { s with watchSuspended := true } (parseBody body) with
    | mk s2 threw =>
      rw [hcl] at hc
      cases threw <;> exact hc

theorem handle_pendingFlags (env : Env) (req : Request) (s : State) :
    pendingFlags (handle env req s).1 = pendingFlags s := by
  unfold handle
  split
  · split
    · show pendingFlags (clearAll s) = _
      rw [clearAll_eq]
      split <;> rfl
    · split <;> rfl
  · split
    · rfl
    · split
      · exact onEnd_pendingFlags env true _ s
      · split
        · exact onEnd_pendingFlags env false _ s
        · rfl

theorem clean_pendingFlags (env : Env) (s : State) :
    pendingFlags (clean env s).1 = pendingFlags s := by
  rw [clean_eq]
  split
  · rfl
  · split <;> rfl

/-- Once `cleanPending` is set with no debounce timeout outstanding, no event
changes either. -/
theorem step_stuck (s : State) (e : Event)
    (h : pendingFlags s = (true, 0)) : pendingFlags (step s e) = (true, 0) := by
  have hp : s.cleanPending = true := congrArg Prod.fst h
  have ht : s.timeouts = 0 := congrArg Prod.snd h
  unfold step
  split
  · exact h
  · cases e with
    | request env req => exact (handle_pendingFlags env req s).trans h
    | watch =>
      show pendingFlags (onWatch s) = _
      unfold onWatch
      simp only [hp, Bool.or_true, if_true]
      exact h
    | debounce env =>
      show pendingFlags (onDebounce env s) = _
      unfold onDebounce
      rw [if_pos ht]
      exact h
    | timer env => exact (clean_pendingFlags env s).trans h
    | external d => exact h

theorem run_stuck (es : List Event) (s : State)
    (h : pendingFlags s = (true, 0)) : pendingFlags (run s es) = (true, 0) := by
  unfold run
  induction es generalizing s with
  | nil => exact h
  | cons e es ih =>
    rw [List.foldl_cons]
    exact ih _ (step_stuck s e h)

/-- The suspension flag is found set only in a process that has terminated:
the `end` callback sets and resets it in one go unless `touch` throws. -/
def SuspendedOnlyCrashed (s : State) : Prop :=
  s.watchSuspended = true → s.crashed = true

theorem onEnd_suspended (env : Env) (query : Bool) (body : String) (s : State) :
    SuspendedOnlyCrashed (onEnd env query body s).1 := by
  unfold onEnd
  cases query with
  | true =>
    simp only [if_true]
    cases hql : queryLoop env { s with watchSuspended := true } (parseBody body) with
    | mk s2 bits =>
      cases bits with
      | none => intro _; rfl
      | some b => intro h; exact absurd h (by simp)
  | false =>
    simp only [Bool.false_eq_true, if_false]
    cases hcl : commitLoop env { s with watchSuspended := true } (parseBody body) with
    | mk s2 threw =>
      cases threw with
      | true => intro _; rfl
      | false => intro h; exact absurd h (by simp)

theorem clean_watchSuspended (env : Env) (s : State) :
    (clean env s).1.watchSuspended = s.watchSuspended := by
  rw [clean_eq]
  split
  · rfl
  · split <;> rfl

theorem step_suspended (s : State) (e : Event) (h : SuspendedOnlyCrashed s) :
    SuspendedOnlyCrashed (step s e) := by
  unfold step
  split
  · exact h
  · rename_i hc
    have hw : s.watchSuspended = false := by
      cases hs : s.watchSuspended with
      | false => rfl
      | true => exact absurd (h hs) hc
    have keep : ∀ t : State, t.watchSuspended = s.watchSuspended → SuspendedOnlyCrashed t := by
      intro t ht h1
      rw [ht, hw] at h1
      exact absurd h1 (by simp)
    cases e with
    | request env req =>
      show SuspendedOnlyCrashed (handle env req s).1
      unfold handle
      split
      · split
        · show SuspendedOnlyCrashed (clearAll s)
          rw [clearAll_eq]
          split <;> exact keep _ rfl
        · split <;> exact keep _ rfl
      · split
        · exact keep _ rfl
        · split
          · exact onEnd_suspended env true _ s
          · split
            · exact onEnd_suspended env false _ s
            · exact keep _ rfl
    | watch =>
      show SuspendedOnlyCrashed (onWatch s)
      unfold onWatch
      split <;> exact keep _ rfl
    | debounce env =>
      show SuspendedOnlyCrashed (onDebounce env s)
      unfold onDebounce
      split
      · exact keep _ rfl
      · dsimp only
        split
        · exact keep _ (clean_watchSuspended env _)
        · exact keep _ (clean_watchSuspended env _)
    | timer env => exact keep _ (clean_watchSuspended env s)
    | external d => exact keep _ rfl

theorem reachable_suspended (s : State) (h : Reachable s) : SuspendedOnlyCrashed s := by
  induction h with
  | boot data maxEntries dir env _ _ =>
    intro hw
    rw [clean_watchSuspended] at hw
    exact absurd hw (by simp [initial])
  | next s e _ _ ih => exact step_suspended s e ih

/-! ## The handlers as wholes -/

theorem handle_query_eq (env : Env) (s : State) (body : String) :
    handle env ⟨"POST", "/query", body⟩ s = onEnd env true body s := by
  simp [handle]

theorem handle_commit_eq (env : Env) (s : State) (body : String) :
    handle env ⟨"POST", "/commit", body⟩ s = onEnd env false body s := by
  simp [handle]

theorem handle_clear_eq (env : Env) (s : State) (body : String) :
    handle env ⟨"GET", "/clear", body⟩ s = (clearAll s, none) := by
  simp [handle]

theorem handle_list_eq (env : Env) (s : State) (body : String) :
    handle env ⟨"GET", "/list", body⟩ s
      = (s, some { statusCode := 200, body := jsJoin "\n" s.filesArray ++ "\n" }) := by
  simp [handle]

/-- The state after the query callback is the state the loop left, up to the
two flags the callback itself writes. -/
theorem query_state (env : Env) (s : State) (body : String) :
    ∃ b c, (handle env ⟨"POST", "/query", body⟩ s).1
      = { (queryLoop env { s with watchSuspended := true } (parseBody body)).1 with
          watchSuspended := b, crashed := c } := by
  rw [handle_query_eq]
  unfold onEnd
  simp only [if_true]
  cases hql : queryLoop env { s with watchSuspended := true } (parseBody body) with
  | mk s2 bits =>
    cases bits with
    | none => exact ⟨s2.watchSuspended, true, rfl⟩
    | some b => exact ⟨false, s2.crashed, rfl⟩

/-- The commit callback when every open succeeds: it answers 200 with an
empty body and leaves the state of the loop with the flag reset. -/
theorem commit_result (env : Env) (s : State) (body : String)
    (hopen : ∀ x ∈ parseBody body,
      env.openSync (pathJoin s.data x) ≠ OpenResult.throws) :
    handle env ⟨"POST", "/commit", body⟩ s
      = ({ (commitLoop env { s with watchSuspended := true } (parseBody body)).1 with
            watchSuspended := false },
          some { statusCode := 200, body := "" }) := by
  have h2 := (commitLoop_filesSet env { s with watchSuspended := true }
    (parseBody body) hopen).1
  rw [handle_commit_eq]
  unfold onEnd
  simp only [Bool.false_eq_true, if_false]
  cases hcl : commitLoop env { s with watchSuspended := true } (parseBody body) with
  | mk s2 threw =>
    rw [hcl] at h2
    simp only at h2
    subst h2
    rfl

/-! ## Claims -/

/-- C7: the parsed name list is the list of tokens of the body for the
delimiter in use (comma when the body holds a comma, newline otherwise), in
order, with the empty tokens dropped: `split` yields a token list of the
body, and the parse is the non-empty members of whatever list is a token list
of the body.  No parsed name is empty, none holds the delimiter, and a body
whose tokens are all empty parses to the empty list. -/
theorem parseBody_tokens (body : String) :
    IsTokenList (delimiterOf body) body (jsSplit (delimiterOf body) body)
    ∧ (∀ ts, IsTokenList (delimiterOf body) body ts →
        parseBody body = ts.filter (fun t => decide (t ≠ "")))
    ∧ (delimiterOf body = ',' ↔ ',' ∈ body.data)
    ∧ (delimiterOf body = '\n' ↔ ',' ∉ body.data)
    ∧ (∀ x ∈ parseBody body, x ≠ "")
    ∧ (∀ x ∈ parseBody body, delimiterOf body ∉ x.data)
    ∧ ((∀ t ∈ jsSplit (delimiterOf body) body, t = "") → parseBody body = []) := by
  have hT := jsSplit_isTokenList (delimiterOf body) body
  refine ⟨hT, ?_, ?_, ?_, ?_, ?_, ?_⟩
  · intro ts hts
    rw [tokenList_unique _ _ ts hts]
    exact parseBody_eq body
  · unfold delimiterOf
    by_cases h : ',' ∈ body.data
    · simp [h]
    · simp only [h, if_false, iff_false]
      decide
  · unfold delimiterOf
    by_cases h : ',' ∈ body.data
    · simp only [h, if_true, not_true_eq_false, iff_false]
      decide
    · simp [h]
  · intro x hx
    rw [parseBody_eq] at hx
    simpa using (List.mem_filter.mp hx).2
  · intro x hx
    rw [parseBody_eq] at hx
    exact hT.2.1 x (List.mem_filter.mp hx).1
  · intro h
    rw [parseBody_eq, List.filter_eq_nil_iff]
    intro t ht
    simp [h t ht]

/-- C7, on the body "a,,b": its comma tokens are "a", "" and "b", and the
parse is "a", "b". -/
theorem parseBody_tokens_witness :
    IsTokenList (delimiterOf "a,,b") "a,,b" ["a", "", "b"]
    ∧ parseBody "a,,b" = ["a", "b"] :=
  have hts : IsTokenList (delimiterOf "a,,b") "a,,b" ["a", "", "b"] :=
    ⟨by decide, by decide, by decide⟩
  ⟨hts, (parseBody_tokens "a,,b").2.1 ["a", "", "b"] hts⟩

/-- C1 as stated fails: on a server whose directory holds the subdirectory
"sub", listed by the first pass and so in the index, the query body "sub" is
never answered: opening `data/sub` for append throws out of the callback
before `res.end`, and the process terminates. -/
theorem query_hit_unopenable_unanswered :
    Reachable bootSub
    ∧ bootSub.filesSet = ["a", "sub"]
    ∧ parseBody "sub" = ["sub"]
    ∧ (serve envSub ⟨"POST", "/query", "sub"⟩ bootSub).2 = none
    ∧ (serve envSub ⟨"POST", "/query", "sub"⟩ bootSub).1.crashed = true :=
  ⟨Reachable.boot "./data" 5 ["a", "sub"] envSub (by decide) (by decide),
    by decide, by decide, by decide, by decide⟩

/-- C1, amended: when the marker of every requested name that is in the index
can be opened, the response to `POST /query` is completed with status 200 and
a body that holds, for the parsed names in input order, the character `1` for
a name in the index and `0` for any other, followed by one newline; its
length is the number of names plus one.  With only "b" in the index the body
"a,b,c" is answered by "010" and a newline. -/
theorem query_response_body (env : Env) (s : State) (body : String)
    (hopen : ∀ x ∈ parseBody body, x ∈ s.filesSet →
      env.openSync (pathJoin s.data x) ≠ OpenResult.throws) :
    (∃ r, (handle env ⟨"POST", "/query", body⟩ s).2 = some r
      ∧ r.statusCode = 200
      ∧ r.body.data
          = (parseBody body).map (fun x => if x ∈ s.filesSet then '1' else '0') ++ ['\n']
      ∧ r.body.length = (parseBody body).length + 1)
    ∧ (handle (envOk []) ⟨"POST", "/query", "a,b,c"⟩ { s with filesSet := ["b"] }).2
        = some ⟨200, "010\n"⟩ := by
  refine ⟨query_response_aux env s body hopen, ?_⟩
  obtain ⟨r, hr, hs, hd, -⟩ := query_response_aux (envOk []) { s with filesSet := ["b"] }
    "a,b,c" (by intro x _ _ h; cases h)
  rw [hr]
  have hp : parseBody "a,b,c" = ["a", "b", "c"] := by decide
  rw [hp] at hd
  have hbody : r.body = "010\n" := by
    apply String.ext
    rw [hd]
    show List.map (fun x => if x ∈ ["b"] then '1' else '0') ["a", "b", "c"] ++ ['\n']
      = "010\n".data
    decide
  cases r with
  | mk sc b =>
    simp only at hs hbody
    rw [hs, hbody]

/-- C1 amended, on the index `["b"]` with the body "a,b,c". -/
theorem query_response_body_witness :
    (∀ x ∈ parseBody "a,b,c", x ∈ sampleB.filesSet →
      (envOk []).openSync (pathJoin sampleB.data x) ≠ OpenResult.throws)
    ∧ (handle (envOk []) ⟨"POST", "/query", "a,b,c"⟩ sampleB).2 = some ⟨200, "010\n"⟩ :=
  have hopen : ∀ x ∈ parseBody "a,b,c", x ∈ sampleB.filesSet →
      (envOk []).openSync (pathJoin sampleB.data x) ≠ OpenResult.throws := by
    intro x _ _ h; cases h
  ⟨hopen, (query_response_body (envOk []) sampleB "a,b,c" hopen).2⟩

/-- C2 as stated fails: the commit body "x/y,z" on a server whose directory
has no entry "x" adds "x/y" to the index, then opening `data/x/y` throws out
of the callback: the commit is never answered, the process terminates, and a
later query is never answered either. -/
theorem commit_unopenable_unanswered :
    Reachable bootA
    ∧ parseBody "x/y,z" = ["x/y", "z"]
    ∧ (serve envSub ⟨"POST", "/commit", "x/y,z"⟩ bootA).2 = none
    ∧ (serve envSub ⟨"POST", "/commit", "x/y,z"⟩ bootA).1.crashed = true
    ∧ (serve envSub ⟨"POST", "/commit", "x/y,z"⟩ bootA).1.filesSet = ["a", "x/y"]
    ∧ (serve (envOk []) ⟨"POST", "/query", "x/y,z"⟩
        (serve envSub ⟨"POST", "/commit", "x/y,z"⟩ bootA).1).2 = none :=
  ⟨Reachable.boot "./data" 5 ["a"] (envOk []) (by decide) (by decide),
    by decide, by decide, by decide, by decide, by decide⟩

/-- C2, amended: when the marker of every committed name can be opened, the
commit is answered, and when the marker of every queried name that is then in
the index can be opened, the answer to a `POST /query` that follows directly
has `1` at position i exactly when the i-th queried name was in the index
before the commit or is one of the committed names; from an empty index,
exactly when it is one of the committed names. -/
theorem commit_then_query (envC envQ : Env) (s : State) (committed queried : String)
    (hc : ∀ x ∈ parseBody committed,
      envC.openSync (pathJoin s.data x) ≠ OpenResult.throws)
    (hq : ∀ q ∈ parseBody queried, (q ∈ s.filesSet ∨ q ∈ parseBody committed) →
      envQ.openSync (pathJoin s.data q) ≠ OpenResult.throws) :
    (handle envC ⟨"POST", "/commit", committed⟩ s).2 = some ⟨200, ""⟩
    ∧ (∃ r, (handle envQ ⟨"POST", "/query", queried⟩
            (handle envC ⟨"POST", "/commit", committed⟩ s).1).2 = some r
      ∧ r.body.data
          = (parseBody queried).map
              (fun q => if q ∈ s.filesSet ∨ q ∈ parseBody committed then '1' else '0')
            ++ ['\n'])
    ∧ (∃ r, (handle envQ ⟨"POST", "/query", queried⟩
            (handle envC ⟨"POST", "/commit", committed⟩
              { s with filesArray := [], filesSet := [] }).1).2 = some r
      ∧ r.body.data
          = (parseBody queried).map
              (fun q => if q ∈ parseBody committed then '1' else '0') ++ ['\n']) := by
  have key : ∀ t : State, t.data = s.data →
      (∀ q ∈ parseBody queried, (q ∈ t.filesSet ∨ q ∈ parseBody committed) →
        envQ.openSync (pathJoin s.data q) ≠ OpenResult.throws) →
      ∃ r, (handle envQ ⟨"POST", "/query", queried⟩
            (handle envC ⟨"POST", "/commit", committed⟩ t).1).2 = some r
      ∧ r.body.data
          = (parseBody queried).map
              (fun q => if q ∈ t.filesSet ∨ q ∈ parseBody committed then '1' else '0')
            ++ ['\n'] := by
    intro t htd htq
    have hct : ∀ x ∈ parseBody committed,
        envC.openSync (pathJoin t.data x) ≠ OpenResult.throws := by
      intro x hx; rw [htd]; exact hc x hx
    have hres := commit_result envC t committed hct
    have hmem := (commitLoop_filesSet envC { t with watchSuspended := true }
      (parseBody committed) hct).2
    have hfr := commitLoop_frame envC { t with watchSuspended := true } (parseBody committed)
    have hdata : (handle envC ⟨"POST", "/commit", committed⟩ t).1.data = s.data := by
      rw [hres]
      exact (congrArg Prod.fst hfr).trans htd
    have hset : ∀ q, q ∈ (handle envC ⟨"POST", "/commit", committed⟩ t).1.filesSet
        ↔ q ∈ t.filesSet ∨ q ∈ parseBody committed := by
      intro q
      rw [hres]
      exact hmem q
    obtain ⟨r, hr, -, hd, -⟩ :=
      query_response_aux envQ (handle envC ⟨"POST", "/commit", committed⟩ t).1 queried (by
        intro q hqm hqs
        rw [hdata]
        exact htq q hqm ((hset q).mp hqs))
    refine ⟨r, hr, ?_⟩
    rw [hd]
    congr 1
    apply List.map_congr_left
    intro q _
    by_cases h : q ∈ (handle envC ⟨"POST", "/commit", committed⟩ t).1.filesSet
    · rw [if_pos h, if_pos ((hset q).mp h)]
    · rw [if_neg h, if_neg (fun h2 => h ((hset q).mpr h2))]
  refine ⟨?_, key s rfl hq, ?_⟩
  · rw [commit_result envC s committed hc]
  · obtain ⟨r, hr, hd⟩ := key { s with filesArray := [], filesSet := [] } rfl
      (fun q hqm hqs => hq q hqm (Or.inr (by simpa using hqs)))
    exact ⟨r, hr, by simpa using hd⟩

/-- C2 amended, on the server booted on `["a"]`: after the commit body "b,b"
the query body "a,b,c" is answered by "110" and a newline. -/
theorem commit_then_query_witness :
    (handle (envOk []) ⟨"POST", "/commit", "b,b"⟩ bootA).2 = some ⟨200, ""⟩
    ∧ ∃ r, (handle (envOk []) ⟨"POST", "/query", "a,b,c"⟩
            (handle (envOk []) ⟨"POST", "/commit", "b,b"⟩ bootA).1).2 = some r
      ∧ r.body.data
          = (parseBody "a,b,c").map
              (fun q => if q ∈ bootA.filesSet ∨ q ∈ parseBody "b,b" then '1' else '0')
            ++ ['\n'] :=
  have h := commit_then_query (envOk []) (envOk []) bootA "b,b" "a,b,c"
    (by intro x _ h; cases h) (by intro q _ _ h; cases h)
  ⟨h.1, h.2.1⟩

/-- C3: a reconciliation pass over a directory holding more than
`maxEntries` markers that all stat successfully does not complete: the first
iteration of the eviction loop passes `undefined` to `fs.unlinkSync`, which
throws.  No marker is removed, the index is the full listing, and the promise
is never resolved. -/
theorem clean_over_capacity_throws (env : Env) (s : State)
    (hread : env.readdirErr = false)
    (hstat : ∀ x ∈ s.dir, (env.mtimeMs (pathJoin s.data x)).isSome = true)
    (hover : s.maxEntries < s.dir.length) :
    (clean env s).2 = Outcome.threw
    ∧ (clean env s).1.dir = s.dir
    ∧ (clean env s).1.fsCalls = s.fsCalls
    ∧ (clean env s).1.filesArray = s.dir
    ∧ (clean env s).1.filesSet = setOf s.dir
    ∧ (clean env s).1.crashed = true := by
  have hlen := filesAndStat_length s.data env s.dir hstat
  have h1 : ¬ (s.dir.length ≤ s.maxEntries
      ∨ (filesAndStat s.data env s.dir).length ≤ s.maxEntries) := by
    rw [hlen]; omega
  rw [clean_eq, hread, if_neg (by decide), if_neg h1]
  exact ⟨rfl, rfl, rfl, rfl, rfl, rfl⟩

/-- C3, at capacity 1 with the two markers "a" (older) and "b": the pass
throws and both markers are still there. -/
theorem clean_over_capacity_throws_witness :
    overfull.maxEntries < overfull.dir.length
    ∧ (clean envAB overfull).2 = Outcome.threw
    ∧ (clean envAB overfull).1.dir = ["a", "b"] :=
  have h := clean_over_capacity_throws envAB overfull rfl
    (by intro x _; rfl) (by decide)
  ⟨by decide, h.1, h.2.1⟩

/-- C4: in every state of a listening server (first pass resolved on a
duplicate-free listing, then any requests, watch notifications, timeouts,
timer ticks and outside changes of the directory), `filesSet` and `filesArray`
hold the same names and `filesArray` repeats none.  This covers the state in
which a pass that has to evict throws, and states after commits that repeat a
name. -/
theorem reachable_index_consistent (s : State) (h : Reachable s) : IndexConsistent s :=
  (reachable_inv s h).2

/-- C4, on the server booted on `["a"]` after the commit body "b,b". -/
theorem reachable_index_consistent_witness :
    Reachable afterCommit ∧ afterCommit.filesArray = ["a", "b"]
    ∧ IndexConsistent afterCommit :=
  have hr : Reachable afterCommit :=
    Reachable.next bootA (Event.request (envOk []) ⟨"POST", "/commit", "b,b"⟩)
      (Reachable.boot "./data" 5 ["a"] (envOk []) (by decide) (by decide)) trivial
  ⟨hr, by decide, reachable_index_consistent afterCommit hr⟩

/-- C5: `GET /clear` on a non-empty index does not clear it.  The first
`fs.unlink` of line 115 is called without a callback and throws before lines
117–118 run: the index and the directory are as before, the process
terminates, and neither a `GET /list` nor a `POST /query` that follows is
answered. -/
theorem clear_nonempty_throws (env : Env) (s : State) (b1 b2 body : String)
    (hne : s.filesArray ≠ []) :
    (handle env ⟨"GET", "/clear", b1⟩ s).1.crashed = true
    ∧ (handle env ⟨"GET", "/clear", b1⟩ s).1.filesArray = s.filesArray
    ∧ (handle env ⟨"GET", "/clear", b1⟩ s).1.filesSet = s.filesSet
    ∧ (handle env ⟨"GET", "/clear", b1⟩ s).1.dir = s.dir
    ∧ (serve env ⟨"GET", "/list", b2⟩ (handle env ⟨"GET", "/clear", b1⟩ s).1).2 = none
    ∧ (serve env ⟨"POST", "/query", body⟩ (handle env ⟨"GET", "/clear", b1⟩ s).1).2
        = none := by
  have hc : (handle env ⟨"GET", "/clear", b1⟩ s).1 = { s with crashed := true } := by
    rw [handle_clear_eq, clearAll_eq, if_neg hne]
  rw [hc]
  exact ⟨rfl, rfl, rfl, rfl, rfl, rfl⟩

/-- C5, on the server booted on `["a"]`: after `GET /clear` the index is
still `["a"]` and `GET /list` gets no answer. -/
theorem clear_nonempty_throws_witness :
    bootA.filesArray ≠ []
    ∧ (handle (envOk []) ⟨"GET", "/clear", ""⟩ bootA).1.filesArray = ["a"]
    ∧ (serve (envOk []) ⟨"GET", "/list", ""⟩
        (handle (envOk []) ⟨"GET", "/clear", ""⟩ bootA).1).2 = none :=
  have h := clear_nonempty_throws (envOk []) bootA "" "" "" (by decide)
  ⟨by decide, h.2.1, h.2.2.2.2.1⟩

/-- C6 as stated fails: with the subdirectory "sub" in the index, the query
body "sub,zz" names "zz", which is not in the index, yet no `0` is emitted
for it: opening `data/sub` throws before "zz" is looked at, and nothing is
sent. -/
theorem query_miss_after_throw_unanswered :
    Reachable bootSub
    ∧ parseBody "sub,zz" = ["sub", "zz"]
    ∧ "zz" ∉ bootSub.filesSet
    ∧ (serve envSub ⟨"POST", "/query", "sub,zz"⟩ bootSub).2 = none :=
  ⟨Reachable.boot "./data" 5 ["a", "sub"] envSub (by decide) (by decide),
    by decide, by decide, by decide⟩

/-- C6, amended: `POST /query` leaves both index structures as they were, and
every open-for-append it makes is for a queried name that is in the index, so
none is made for a name that is not.  When the marker of every queried name
that is in the index can be opened, the response has `0` at the position of
every queried name that is not in the index.  When no queried name is in the
index, the directory and the record of file-system calls are unchanged and
the response is all `0`. -/
theorem query_frame (env : Env) (s : State) (body : String) :
    (handle env ⟨"POST", "/query", body⟩ s).1.filesArray = s.filesArray
    ∧ (handle env ⟨"POST", "/query", body⟩ s).1.filesSet = s.filesSet
    ∧ (∃ l, (handle env ⟨"POST", "/query", body⟩ s).1.fsCalls = s.fsCalls ++ l
        ∧ ∀ c ∈ l, ∃ x ∈ parseBody body,
            x ∈ s.filesSet ∧ c = FsCall.openAppend (pathJoin s.data x))
    ∧ ((∀ x ∈ parseBody body, x ∈ s.filesSet →
          env.openSync (pathJoin s.data x) ≠ OpenResult.throws) →
        ∃ r, (handle env ⟨"POST", "/query", body⟩ s).2 = some r
          ∧ ∀ (i : Nat) (x : String), (parseBody body)[i]? = some x → x ∉ s.filesSet →
              r.body.data[i]? = some '0')
    ∧ ((∀ x ∈ parseBody body, x ∉ s.filesSet) →
        (handle env ⟨"POST", "/query", body⟩ s).1.dir = s.dir
        ∧ (handle env ⟨"POST", "/query", body⟩ s).1.fsCalls = s.fsCalls
        ∧ ∃ r, (handle env ⟨"POST", "/query", body⟩ s).2 = some r
          ∧ r.body.data = List.replicate (parseBody body).length '0' ++ ['\n']) := by
  obtain ⟨b, c, hs⟩ := query_state env s body
  obtain ⟨-, f2, f3⟩ :=
    queryLoop_frame env { s with watchSuspended := true } (parseBody body)
  refine ⟨?_, ?_, ?_, ?_, ?_⟩
  · rw [hs]; exact f3
  · rw [hs]; exact f2
  · obtain ⟨l, hl, hall⟩ :=
      queryLoop_fsCalls env { s with watchSuspended := true } (parseBody body)
    exact ⟨l, by rw [hs]; exact hl, hall⟩
  · intro hopen
    obtain ⟨r, hr, -, hd, -⟩ := query_response_aux env s body hopen
    refine ⟨r, hr, ?_⟩
    intro i x hi hx
    have hlt : i < (parseBody body).length := (List.getElem?_eq_some_iff.mp hi).1
    rw [hd, List.getElem?_append_left (by simpa using hlt), List.getElem?_map, hi]
    simp [hx]
  · intro h
    have hm := queryLoop_miss env { s with watchSuspended := true } (parseBody body) h
    refine ⟨?_, ?_, ?_⟩
    · rw [hs]
      show (queryLoop env { s with watchSuspended := true } (parseBody body)).1.dir = s.dir
      rw [hm]
    · rw [hs]
      show (queryLoop env { s with watchSuspended := true } (parseBody body)).1.fsCalls
        = s.fsCalls
      rw [hm]
    · obtain ⟨r, hr, -, hd, -⟩ := query_response_aux env s body
        (fun x hx hxs => absurd hxs (h x hx))
      refine ⟨r, hr, ?_⟩
      rw [hd]
      congr 1
      rw [List.eq_replicate_iff]
      refine ⟨by simp, ?_⟩
      intro ch hch
      obtain ⟨x, hx, rfl⟩ := List.mem_map.mp hch
      rw [if_neg (h x hx)]

/-- C6 amended, on the index `["b"]`: the body "a,b,c" is answered with `0`
at the positions of "a" and "c", and the body "a,c", which names nothing in
the index, leaves directory and call record as they were. -/
theorem query_frame_witness :
    (∃ r, (handle (envOk []) ⟨"POST", "/query", "a,b,c"⟩ sampleB).2 = some r
      ∧ ∀ (i : Nat) (x : String), (parseBody "a,b,c")[i]? = some x → x ∉ sampleB.filesSet →
          r.body.data[i]? = some '0')
    ∧ (∀ x ∈ parseBody "a,c", x ∉ sampleB.filesSet)
    ∧ (handle (envOk []) ⟨"POST", "/query", "a,c"⟩ sampleB).1.dir = sampleB.dir
    ∧ (handle (envOk []) ⟨"POST", "/query", "a,c"⟩ sampleB).1.fsCalls = sampleB.fsCalls :=
  have h1 := (query_frame (envOk []) sampleB "a,b,c").2.2.2.1
    (by intro x _ _ h; cases h)
  have hmiss : ∀ x ∈ parseBody "a,c", x ∉ sampleB.filesSet := by decide
  have h2 := (query_frame (envOk []) sampleB "a,c").2.2.2.2 hmiss
  ⟨h1, hmiss, h2.1, h2.2.1⟩

/-- C8: in every state of the server in which `watchSuspended` is set, a
reconciliation trigger (watch notification, debounce timeout, periodic timer)
runs nothing and leaves the whole state, index and directory included, as it
was.  The flag is set and reset inside one run of the `end` callback, so a
trigger finds it set only after `touch` threw there, when the process has
terminated.  With the flag clear the periodic timer runs `clean` whatever the
value of `cleanPending`. -/
theorem suspended_trigger_dropped (s : State) (env : Env)
    (h : Reachable s) (hw : s.watchSuspended = true) :
    step s Event.watch = s
    ∧ step s (Event.debounce env) = s
    ∧ step s (Event.timer env) = s
    ∧ s.crashed = true
    ∧ (∀ (t : State) (p : Bool), t.crashed = false →
        step { t with cleanPending := p } (Event.timer env)
          = (clean env { t with cleanPending := p }).1) := by
  have hc : s.crashed = true := reachable_suspended s h hw
  refine ⟨?_, ?_, ?_, hc, ?_⟩
  · unfold step; rw [if_pos hc]
  · unfold step; rw [if_pos hc]
  · unfold step; rw [if_pos hc]
  · intro t p ht
    unfold step
    rw [if_neg (by simpa using ht)]
    rfl

/-- C8, on the server booted on `["a"]` after the commit of "x/y" threw with
the flag set: a timer tick leaves the state as it is; and on the running
server with `cleanPending` set the timer runs `clean`. -/
theorem suspended_trigger_dropped_witness :
    Reachable afterThrow
    ∧ afterThrow.watchSuspended = true
    ∧ step afterThrow (Event.timer (envOk [])) = afterThrow
    ∧ step afterThrow Event.watch = afterThrow
    ∧ step { bootA with cleanPending := true } (Event.timer (envOk []))
        = (clean (envOk []) { bootA with cleanPending := true }).1 :=
  have hr : Reachable afterThrow :=
    Reachable.next bootA (Event.request envSub ⟨"POST", "/commit", "x/y"⟩)
      (Reachable.boot "./data" 5 ["a"] (envOk []) (by decide) (by decide)) trivial
  have h := suspended_trigger_dropped afterThrow (envOk []) hr (by decide)
  ⟨hr, by decide, h.2.2.1, h.1, h.2.2.2.2 bootA true (by decide)⟩

/-- C9: when the directory enumeration of a pass started by a watch
notification fails, index and directory are as before, but `cleanPending`
stays set: the promise of `clean` is never resolved.  The next watch
notification is dropped, and after any further events `cleanPending` is still
set with no timeout outstanding, so no notification starts a pass again. -/
theorem readdir_failure_leaves_pending (env : Env) (s : State) (es : List Event)
    (hread : env.readdirErr = true) (hc : s.crashed = false)
    (hw : s.watchSuspended = false) (hp : s.cleanPending = false)
    (ht : s.timeouts = 0) :
    (step (step s Event.watch) (Event.debounce env)).filesArray = s.filesArray
    ∧ (step (step s Event.watch) (Event.debounce env)).filesSet = s.filesSet
    ∧ (step (step s Event.watch) (Event.debounce env)).dir = s.dir
    ∧ (step (step s Event.watch) (Event.debounce env)).cleanPending = true
    ∧ step (step (step s Event.watch) (Event.debounce env)) Event.watch
        = step (step s Event.watch) (Event.debounce env)
    ∧ (run (step (step s Event.watch) (Event.debounce env)) es).cleanPending = true
    ∧ (run (step (step s Event.watch) (Event.debounce env)) es).timeouts = 0 := by
  have h2 : step (step s Event.watch) (Event.debounce env)
      = { s with cleanPending := true, timeouts := 0 } := by
    simp [step, onWatch, onDebounce, clean, hc, hw, hp, ht, hread]
  have hf : pendingFlags (step (step s Event.watch) (Event.debounce env)) = (true, 0) := by
    rw [h2]; rfl
  have hrun := run_stuck es _ hf
  refine ⟨by rw [h2], by rw [h2], by rw [h2], by rw [h2], ?_,
    congrArg Prod.fst hrun, congrArg Prod.snd hrun⟩
  rw [h2]
  simp [step, onWatch, hc]

/-- C9, on a fresh server over `["a"]`: after a notification whose pass
cannot read the directory, a second notification and a timer tick leave
`cleanPending` set. -/
theorem readdir_failure_leaves_pending_witness :
    (step (step bootA Event.watch) (Event.debounce envUnreadable)).cleanPending = true
    ∧ step (step (step bootA Event.watch) (Event.debounce envUnreadable)) Event.watch
        = step (step bootA Event.watch) (Event.debounce envUnreadable)
    ∧ (run (step (step bootA Event.watch) (Event.debounce envUnreadable))
        [Event.watch, Event.timer (envOk [])]).cleanPending = true :=
  have h := readdir_failure_leaves_pending envUnreadable bootA
    [Event.watch, Event.timer (envOk [])] rfl (by decide) (by decide) (by decide) (by decide)
  ⟨h.2.2.2.1, h.2.2.2.2.1, h.2.2.2.2.2.1⟩

/-- C10: the `/clear` arm of the request listener never calls `res.end`: the
request is left unanswered in every state, while `GET /list` on the same
state is answered.  On an empty index the arm leaves both index structures
empty; on a non-empty one the first `fs.unlink`, called without a callback,
throws, so the index stays as it was and the process terminates. -/
theorem clear_leaves_request_unanswered (env : Env) (s : State) (body : String) :
    (handle env ⟨"GET", "/clear", body⟩ s).2 = none
    ∧ (∃ r, (handle env ⟨"GET", "/list", body⟩ s).2 = some r)
    ∧ (s.filesArray = [] →
        (handle env ⟨"GET", "/clear", body⟩ s).1.filesArray = []
        ∧ (handle env ⟨"GET", "/clear", body⟩ s).1.filesSet = []
        ∧ (handle env ⟨"GET", "/clear", body⟩ s).1.crashed = s.crashed)
    ∧ (s.filesArray ≠ [] →
        (handle env ⟨"GET", "/clear", body⟩ s).1.filesArray = s.filesArray
        ∧ (handle env ⟨"GET", "/clear", body⟩ s).1.filesSet = s.filesSet
        ∧ (handle env ⟨"GET", "/clear", body⟩ s).1.crashed = true) := by
  rw [handle_clear_eq, handle_list_eq, clearAll_eq]
  refine ⟨rfl, ⟨_, rfl⟩, ?_, ?_⟩
  · intro h
    rw [if_pos h]
    exact ⟨rfl, rfl, rfl⟩
  · intro h
    rw [if_neg h]
    exact ⟨rfl, rfl, rfl⟩

/-- C10, on the empty index and on the index `["a"]`: `GET /clear` is left
unanswered on both. -/
theorem clear_leaves_request_unanswered_witness :
    (handle (envOk []) ⟨"GET", "/clear", ""⟩ (initial "./data" 5 [])).2 = none
    ∧ (handle (envOk []) ⟨"GET", "/clear", ""⟩ (initial "./data" 5 [])).1.filesArray = []
    ∧ (handle (envOk []) ⟨"GET", "/clear", ""⟩ bootA).2 = none
    ∧ (handle (envOk []) ⟨"GET", "/clear", ""⟩ bootA).1.crashed = true :=
  have h0 := clear_leaves_request_unanswered (envOk []) (initial "./data" 5 []) ""
  have h1 := clear_leaves_request_unanswered (envOk []) bootA ""
  ⟨h0.1, (h0.2.2.1 rfl).1, h1.1, (h1.2.2.2 (by decide)).2.2⟩

end Klang
